import Mathlib

/-!
Verification of the NeuroPilot MI-based BCI core against its specification.

The Python core (src/eeg_worker.py, src/models.py, src/dsp.py, src/eeg_module.py)
is shallowly embedded below: numpy arrays become `List`-based matrices over `ℚ`,
external numeric library kernels (scipy eigensolvers, IIR filtering, sklearn
classifiers, np.log, sqrt) become explicit oracle parameters with an
`Except String` failure channel mirroring Python exceptions, and Python slicing
(including negative indices) is modelled by `pyDrop`.
-/

namespace NeuroPilot

/-! ## Pythonic list primitives -/

/-- Python slice `l[a:]` for an integer `a` which may be negative:
a negative start counts from the end and is clamped to 0. -/
def pyDrop {α : Type} (a : ℤ) (l : List α) : List α :=
  if 0 ≤ a then l.drop a.toNat else l.drop (l.length - (-a).toNat)

/-- Numpy slice assignment `l[i : i + xs.length] = xs` (in-range writes only). -/
def writeAt {α : Type} (i : ℕ) (xs l : List α) : List α :=
  l.take i ++ xs ++ l.drop (i + xs.length)

/-- The last `n` elements of a list, in order. -/
def lastN {α : Type} (n : ℕ) (l : List α) : List α :=
  l.drop (l.length - n)

theorem pyDrop_ofNat {α : Type} (a : ℕ) (l : List α) :
    pyDrop (a : ℤ) l = l.drop a := by
  simp [pyDrop]

theorem pyDrop_neg {α : Type} (m : ℕ) (hm : 0 < m) (l : List α) :
    pyDrop (-(m : ℤ)) l = l.drop (l.length - m) := by
  have : ¬ (0 ≤ -(m : ℤ)) := by omega
  simp only [pyDrop, if_neg this, neg_neg, Int.toNat_ofNat]

theorem length_writeAt {α : Type} (i : ℕ) (xs l : List α)
    (h : i + xs.length ≤ l.length) :
    (writeAt i xs l).length = l.length := by
  simp only [writeAt, List.length_append, List.length_take, List.length_drop]
  omega

/-! ## RingBuffer (src/eeg_worker.py lines 39-84)

Rows of the buffer are generic (`α`); the Python code stores float32 vectors.
`z` plays the role of the zero row used by `np.zeros`. -/

structure RingBuffer (α : Type) where
  maxlen : ℕ
  buf : List α
  idx : ℕ
  full : Bool
deriving Repr, DecidableEq

/-- `RingBuffer.__init__`: a zero-filled store, cursor at 0, not yet full. -/
def RingBuffer.init {α : Type} (z : α) (maxlen : ℕ) : RingBuffer α :=
  ⟨maxlen, List.replicate maxlen z, 0, false⟩

/-- `RingBuffer.append` (lines 49-74): write rows circularly; a chunk larger
than the capacity keeps only its most recent `maxlen` rows and restarts the
cursor at 0; reaching the end of the store wraps the cursor and sets `full`. -/
def RingBuffer.append {α : Type} (rb : RingBuffer α) (samples : List α) :
    RingBuffer α :=
  let n := samples.length
  if n = 0 then rb
  else if rb.maxlen < n then
    { rb with buf := pyDrop (-(rb.maxlen : ℤ)) samples, idx := 0, full := true }
  else
    let remain := rb.maxlen - rb.idx
    let rb2 :=
      if n ≤ remain then
        { rb with buf := writeAt rb.idx samples rb.buf, idx := rb.idx + n }
      else
        { rb with
            buf := writeAt 0 (samples.drop remain)
                     (writeAt rb.idx (samples.take remain) rb.buf),
            idx := n - remain,
            full := true }
    if rb.maxlen ≤ rb2.idx then { rb2 with idx := 0, full := true } else rb2

/-- `RingBuffer.get_last` (lines 76-84). The second branch is the Python slice
`buf[idx - n : idx]`; the third reconstructs across the wrap boundary via
`buf[idx - n + maxlen :]` (a possibly negative start) followed by `buf[: idx]`. -/
def RingBuffer.getLast {α : Type} (rb : RingBuffer α) (n : ℕ) :
    Option (List α) :=
  if rb.full = false ∧ rb.idx < n then none
  else if n ≤ rb.idx then some ((rb.buf.drop (rb.idx - n)).take n)
  else some (pyDrop ((rb.idx : ℤ) - n + rb.maxlen) rb.buf ++ rb.buf.take rb.idx)

/-- Appending a sequence of chunks in order. -/
def RingBuffer.appendMany {α : Type} (rb : RingBuffer α)
    (cs : List (List α)) : RingBuffer α :=
  cs.foldl RingBuffer.append rb

/-- Coupling invariant between a reachable buffer state and the full append
history `hist` (all appended rows, oldest first):
once full, reading the store in ring order starting at the cursor yields the
`maxlen` most recent rows; before that, the prefix up to the cursor is exactly
the history. -/
def RBinv {α : Type} (rb : RingBuffer α) (hist : List α) : Prop :=
  rb.buf.length = rb.maxlen ∧ 0 < rb.maxlen ∧ rb.idx < rb.maxlen ∧
  (rb.full = true → rb.maxlen ≤ hist.length ∧
      rb.buf.drop rb.idx ++ rb.buf.take rb.idx = lastN rb.maxlen hist) ∧
  (rb.full = false → rb.idx = hist.length ∧ rb.buf.take rb.idx = hist)

theorem lastN_append_left {α : Type} (hist c : List α) (k : ℕ)
    (h1 : c.length ≤ k) (h2 : k ≤ hist.length) :
    lastN k (hist ++ c) = (lastN k hist).drop c.length ++ c := by
  simp only [lastN, List.length_append, List.drop_append_eq_append_drop,
    List.drop_drop]
  have e1 : hist.length + c.length - k - hist.length = 0 := by omega
  have e2 : hist.length + c.length - k = c.length + (hist.length - k) := by omega
  have e3 : hist.length - k + c.length = c.length + (hist.length - k) :=
    Nat.add_comm _ _
  rw [e1, List.drop_zero, e2, e3]

theorem lastN_of_length_eq {α : Type} (l : List α) (k : ℕ) (h : l.length = k) :
    lastN k l = l := by
  simp [lastN, h]

/-- One step of the coupling invariant: appending a chunk preserves `RBinv`
with the chunk added to the history. -/
theorem RBinv_append {α : Type} (rb : RingBuffer α) (hist c : List α)
    (hinv : RBinv rb hist) : RBinv (rb.append c) (hist ++ c) := by
  obtain ⟨hbuf, hmax, hidx, hfull, hpart⟩ := hinv
  by_cases hz : c.length = 0
  · -- empty chunk: no-op
    have hc : c = [] := List.length_eq_zero.mp hz
    subst hc
    have hstep : rb.append [] = rb := by simp [RingBuffer.append]
    rw [hstep, List.append_nil]
    exact ⟨hbuf, hmax, hidx, hfull, hpart⟩
  · by_cases hbig : rb.maxlen < c.length
    · -- chunk larger than capacity: keep only its last maxlen rows, cursor 0
      have hnewbuf : pyDrop (-(rb.maxlen : ℤ)) c = c.drop (c.length - rb.maxlen) :=
        pyDrop_neg rb.maxlen hmax c
      have hstep : rb.append c =
          { rb with buf := c.drop (c.length - rb.maxlen), idx := 0, full := true } := by
        simp only [RingBuffer.append, if_neg hz, if_pos hbig]
        rw [hnewbuf]
      rw [hstep]
      refine ⟨?_, hmax, hmax, ?_, ?_⟩
      · simp only [List.length_drop]; omega
      · intro _
        refine ⟨by simp only [List.length_append]; omega, ?_⟩
        simp only [List.drop_zero, List.take_zero, List.append_nil, lastN,
          List.length_append, List.drop_append_eq_append_drop]
        have hnil : hist.drop (hist.length + c.length - rb.maxlen) = [] :=
          List.drop_eq_nil_of_le (by omega)
        have hix : hist.length + c.length - rb.maxlen - hist.length =
            c.length - rb.maxlen := by omega
        rw [hnil, hix, List.nil_append]
      · intro hco
        simp at hco
    · -- chunk fits: the write never exceeds the store
      have hn : c.length ≤ rb.maxlen := le_of_not_lt hbig
      by_cases hrem : c.length ≤ rb.maxlen - rb.idx
      · -- contiguous write at the cursor
        have hsplit : writeAt rb.idx c rb.buf =
            (rb.buf.take rb.idx ++ c) ++ rb.buf.drop (rb.idx + c.length) := by
          simp [writeAt]
        have htklen : (rb.buf.take rb.idx ++ c).length = rb.idx + c.length := by
          simp only [List.length_append, List.length_take]
          omega
        have hwl : (writeAt rb.idx c rb.buf).length = rb.maxlen := by
          rw [← hbuf]; exact length_writeAt _ _ _ (by omega)
        by_cases hreset : rb.maxlen ≤ rb.idx + c.length
        · -- cursor lands exactly at the end: wrap to 0, mark full
          have hexact : rb.idx + c.length = rb.maxlen := by omega
          have hdropnil : rb.buf.drop (rb.idx + c.length) = [] := by
            rw [hexact, ← hbuf]; exact List.drop_length _
          have hbufform : writeAt rb.idx c rb.buf = rb.buf.take rb.idx ++ c := by
            rw [hsplit, hdropnil, List.append_nil]
          have hstep : rb.append c =
              { rb with buf := rb.buf.take rb.idx ++ c, idx := 0, full := true } := by
            simp only [RingBuffer.append, if_neg hz, if_neg hbig, if_pos hrem]
            simp only [hreset, if_pos]
            rw [hbufform]
          have hT : rb.maxlen ≤ hist.length + c.length := by
            rcases Bool.eq_false_or_eq_true rb.full with hf | hf
            · exact le_trans (hfull hf).1 (by omega)
            · have h1 := (hpart hf).1; omega
          rw [hstep]
          refine ⟨?_, hmax, hmax, ?_, ?_⟩
          · rw [← hbufform, hwl]
          · intro _
            refine ⟨by simp only [List.length_append]; omega, ?_⟩
            simp only [List.drop_zero, List.take_zero, List.append_nil]
            rcases Bool.eq_false_or_eq_true rb.full with hf | hf
            · -- was already full: rotate the old last-maxlen window
              obtain ⟨hlen, hrot⟩ := hfull hf
              rw [lastN_append_left hist c rb.maxlen hn hlen, ← hrot]
              have hd1 : ((rb.buf.drop rb.idx).drop c.length : List α) = [] :=
                List.drop_eq_nil_of_le (by simp only [List.length_drop]; omega)
              have h0 : c.length - (rb.buf.drop rb.idx).length = 0 := by
                simp only [List.length_drop]; omega
              rw [List.drop_append_eq_append_drop, hd1, h0, List.drop_zero,
                List.nil_append]
            · -- was not yet full: history fills the store exactly
              obtain ⟨hlen, hpre⟩ := hpart hf
              rw [hpre]
              exact (lastN_of_length_eq _ _ (by
                simp only [List.length_append]; omega)).symm
          · intro hco
            simp at hco
        · -- cursor stays strictly inside the store
          have hstep : rb.append c =
              { rb with buf := writeAt rb.idx c rb.buf, idx := rb.idx + c.length } := by
            simp only [RingBuffer.append, if_neg hz, if_neg hbig, if_pos hrem]
            simp only [hreset, if_neg, ite_false]
          rw [hstep]
          refine ⟨hwl, hmax, (by omega : rb.idx + c.length < rb.maxlen), ?_, ?_⟩
          · intro hf
            simp only at hf
            obtain ⟨hlen, hrot⟩ := hfull hf
            refine ⟨by simp only [List.length_append]; omega, ?_⟩
            show (writeAt rb.idx c rb.buf).drop (rb.idx + c.length) ++
                (writeAt rb.idx c rb.buf).take (rb.idx + c.length) = _
            rw [hsplit, List.drop_left' htklen, List.take_left' htklen]
            rw [lastN_append_left hist c rb.maxlen hn hlen, ← hrot]
            have h0 : c.length - (rb.buf.drop rb.idx).length = 0 := by
              simp only [List.length_drop]; omega
            rw [List.drop_append_eq_append_drop, h0, List.drop_zero,
              List.drop_drop, List.append_assoc]
          · intro hf
            simp only at hf
            obtain ⟨hlen, hpre⟩ := hpart hf
            refine ⟨?_, ?_⟩
            · show rb.idx + c.length = (hist ++ c).length
              simp only [List.length_append]
              omega
            · show (writeAt rb.idx c rb.buf).take (rb.idx + c.length) = hist ++ c
              rw [hsplit, List.take_left' htklen, hpre]
      · -- wrap-around write: tail of the store, then the front
        have hrem' : rb.maxlen - rb.idx < c.length := lt_of_not_ge hrem
        set ov := c.length - (rb.maxlen - rb.idx) with hov
        have hov_le : ov ≤ rb.idx := by omega
        have hov_pos : 0 < ov := by omega
        have hinner : writeAt rb.idx (c.take (rb.maxlen - rb.idx)) rb.buf =
            rb.buf.take rb.idx ++ c.take (rb.maxlen - rb.idx) := by
          simp only [writeAt]
          rw [List.drop_eq_nil_of_le (by
            simp only [List.length_take]; omega), List.append_nil]
        have hdlen : (c.drop (rb.maxlen - rb.idx)).length = ov := by
          simp only [List.length_drop]
        have houter : writeAt 0 (c.drop (rb.maxlen - rb.idx))
              (rb.buf.take rb.idx ++ c.take (rb.maxlen - rb.idx)) =
            c.drop (rb.maxlen - rb.idx) ++
              ((rb.buf.take rb.idx).drop ov ++ c.take (rb.maxlen - rb.idx)) := by
          simp only [writeAt, List.take_zero, List.nil_append, Nat.zero_add, hdlen]
          rw [List.drop_append_eq_append_drop]
          have h0 : ov - (rb.buf.take rb.idx).length = 0 := by
            simp only [List.length_take]; omega
          rw [h0, List.drop_zero]
        have hstep : rb.append c =
            { rb with
                buf := c.drop (rb.maxlen - rb.idx) ++
                  ((rb.buf.take rb.idx).drop ov ++ c.take (rb.maxlen - rb.idx)),
                idx := ov, full := true } := by
          simp only [RingBuffer.append, if_neg hz, if_neg hbig, if_neg hrem]
          rw [hinner, houter]
          have hvlt : ¬ rb.maxlen ≤ ov := by omega
          simp only [hvlt, if_neg, ite_false]
        have hT : rb.maxlen ≤ hist.length + c.length := by
          rcases Bool.eq_false_or_eq_true rb.full with hf | hf
          · exact le_trans (hfull hf).1 (by omega)
          · have h1 := (hpart hf).1; omega
        rw [hstep]
        refine ⟨?_, hmax, (by omega : ov < rb.maxlen), ?_, ?_⟩
        · simp only [List.length_append, List.length_drop, List.length_take]
          omega
        · intro _
          refine ⟨by simp only [List.length_append]; omega, ?_⟩
          show (c.drop (rb.maxlen - rb.idx) ++
              ((rb.buf.take rb.idx).drop ov ++ c.take (rb.maxlen - rb.idx))).drop ov
            ++ (c.drop (rb.maxlen - rb.idx) ++
              ((rb.buf.take rb.idx).drop ov ++ c.take (rb.maxlen - rb.idx))).take ov
            = _
          have hcd : (c.drop (rb.maxlen - rb.idx)).drop ov = [] :=
            List.drop_eq_nil_of_le (le_of_eq hdlen)
          have hct : (c.drop (rb.maxlen - rb.idx)).take ov = c.drop (rb.maxlen - rb.idx) := by
            rw [← hdlen]; exact List.take_length _
          have h0 : ov - (c.drop (rb.maxlen - rb.idx)).length = 0 := by
            rw [hdlen]; omega
          rw [List.drop_append_eq_append_drop, List.take_append_eq_append_take,
            hcd, hct, h0, List.drop_zero, List.take_zero, List.append_nil,
            List.nil_append, List.append_assoc, List.take_append_drop]
          rcases Bool.eq_false_or_eq_true rb.full with hf | hf
          · obtain ⟨hlen, hrot⟩ := hfull hf
            rw [lastN_append_left hist c rb.maxlen hn hlen, ← hrot]
            have hdnil : ((rb.buf.drop rb.idx).drop c.length : List α) = [] :=
              List.drop_eq_nil_of_le (by simp only [List.length_drop]; omega)
            have h1 : c.length - (rb.buf.drop rb.idx).length = ov := by
              simp only [List.length_drop]; omega
            rw [List.drop_append_eq_append_drop, hdnil, h1, List.nil_append]
          · obtain ⟨hlen, hpre⟩ := hpart hf
            simp only [lastN, List.length_append, List.drop_append_eq_append_drop]
            have h1 : hist.length + c.length - rb.maxlen = ov := by omega
            have h2 : ov - hist.length = 0 := by omega
            rw [h1, h2, List.drop_zero, ← hpre]
        · intro hco
          simp at hco


/-- The invariant holds for every buffer reachable from a fresh one, with the
history being the concatenation of all appended chunks. -/
theorem RBinv_appendMany {α : Type} (z : α) (C : ℕ) (hC : 0 < C)
    (cs : List (List α)) :
    RBinv ((RingBuffer.init z C).appendMany cs) cs.flatten := by
  suffices h : ∀ cs rb hist, RBinv rb hist →
      RBinv (rb.appendMany cs) (hist ++ cs.flatten) by
    have hinit : RBinv (RingBuffer.init z C) [] := by
      refine ⟨by simp [RingBuffer.init], hC, hC, ?_, ?_⟩
      · intro hf; simp [RingBuffer.init] at hf
      · intro _; simp [RingBuffer.init]
    simpa using h cs (RingBuffer.init z C) [] hinit
  intro cs
  induction cs with
  | nil => intro rb hist h; simpa [RingBuffer.appendMany] using h
  | cons c rest ih =>
    intro rb hist h
    have h1 := RBinv_append rb hist c h
    have h2 := ih (rb.append c) (hist ++ c) h1
    simpa [RingBuffer.appendMany, List.append_assoc] using h2

theorem maxlen_append {α : Type} (rb : RingBuffer α) (c : List α) :
    (rb.append c).maxlen = rb.maxlen := by
  unfold RingBuffer.append
  dsimp only
  split
  · rfl
  split
  · rfl
  split <;> split <;> rfl

theorem maxlen_appendMany {α : Type} (rb : RingBuffer α) (cs : List (List α)) :
    (rb.appendMany cs).maxlen = rb.maxlen := by
  induction cs generalizing rb with
  | nil => rfl
  | cons c rest ih =>
    show ((rb.append c).appendMany rest).maxlen = rb.maxlen
    rw [ih, maxlen_append]

/-- C2: for a fresh `RingBuffer` of capacity `C > 0`, after appending chunks
totaling at least `C` rows (in chunks of arbitrary sizes, including chunks
larger than `C`), `get_last C` returns exactly the `C` most recently appended
rows, oldest first, reconstructed across the wrap boundary. -/
theorem ringBuffer_getLast_capacity {α : Type} (z : α) (C : ℕ) (hC : 0 < C)
    (cs : List (List α)) (hk : C ≤ cs.flatten.length) :
    ((RingBuffer.init z C).appendMany cs).getLast C =
      some (lastN C cs.flatten) := by
  obtain ⟨hbuf, hmax, hidx, hfull, hpart⟩ := RBinv_appendMany z C hC cs
  have hml : ((RingBuffer.init z C).appendMany cs).maxlen = C :=
    maxlen_appendMany _ _
  set rb := (RingBuffer.init z C).appendMany cs with hrb
  rcases Bool.eq_false_or_eq_true rb.full with hf | hf
  · obtain ⟨hlen, hrot⟩ := hfull hf
    rw [RingBuffer.getLast, if_neg (by simp [hf]), if_neg (by omega)]
    have hcast : (rb.idx : ℤ) - C + rb.maxlen = ((rb.idx : ℕ) : ℤ) := by
      rw [hml]; ring
    rw [hcast, pyDrop_ofNat, hrot, hml]
  · obtain ⟨hlen, _⟩ := hpart hf
    exfalso
    omega

/-- C2 witness: capacity 2, three rows appended in chunks of 1 and 2. -/
theorem ringBuffer_getLast_capacity_witness :
    ((RingBuffer.init (0 : ℕ) 2).appendMany [[1], [2, 3]]).getLast 2 =
      some (lastN 2 ([[1], [2, 3]] : List (List ℕ)).flatten) :=
  ringBuffer_getLast_capacity 0 2 (by decide) [[1], [2, 3]] (by decide)

/-- C3 counterexample: with capacity 2, appending a single chunk of 2 rows
makes the buffer full (`idx` wraps to 0); only 2 rows were ever appended, yet
`get_last 3` does not return `None` — the Python negative-index slice
`buf[idx - n + maxlen:]` silently truncates instead. -/
theorem ringBuffer_getLast_none_counterexample :
    ([[5, 7]] : List (List ℕ)).flatten.length < 3 ∧
      ((RingBuffer.init (0 : ℕ) 2).appendMany [[5, 7]]).getLast 3 ≠ none := by
  decide

/-- C3 (amended): `get_last n` returns `None` whenever fewer than `n` rows
have ever been appended, provided `n` does not exceed the capacity (or,
equivalently in that situation, whenever the buffer has not yet wrapped);
for `n` larger than the capacity of a wrapped buffer the guard fails and a
truncated array is returned instead of `None`. -/
theorem ringBuffer_getLast_none_of_insufficient {α : Type} (z : α) (C n : ℕ)
    (hC : 0 < C) (cs : List (List α)) (hlt : cs.flatten.length < n)
    (hside : n ≤ C ∨ ((RingBuffer.init z C).appendMany cs).full = false) :
    ((RingBuffer.init z C).appendMany cs).getLast n = none := by
  obtain ⟨hbuf, hmax, hidx, hfull, hpart⟩ := RBinv_appendMany z C hC cs
  have hml : ((RingBuffer.init z C).appendMany cs).maxlen = C :=
    maxlen_appendMany _ _
  set rb := (RingBuffer.init z C).appendMany cs with hrb
  rcases Bool.eq_false_or_eq_true rb.full with hf | hf
  · obtain ⟨hlen, _⟩ := hfull hf
    rcases hside with hnc | hff
    · exfalso; omega
    · rw [hf] at hff; exact absurd hff (by simp)
  · obtain ⟨hlen, _⟩ := hpart hf
    rw [RingBuffer.getLast, if_pos ⟨hf, by omega⟩]

/-- C3 amended-claim witness: capacity 3, one row appended, `get_last 2`. -/
theorem ringBuffer_getLast_none_witness :
    ((RingBuffer.init (0 : ℕ) 3).appendMany [[4]]).getLast 2 = none :=
  ringBuffer_getLast_none_of_insufficient 0 3 2 (by decide) [[4]] (by decide)
    (Or.inl (by decide))

/-! ## Matrices over ℚ and numeric oracles -/

/-- A 2-D numpy array is modelled as a list of rows over `ℚ`. -/
abbrev Mat := List (List ℚ)

/-- Total element count, `ndarray.size` for a rectangular 2-D array. -/
def dataSize (d : Mat) : ℕ := (d.map List.length).sum

/-- Python truthiness of an optional float: `None` and `0.0` are falsy. -/
def truthy : Option ℚ → Bool
  | none => false
  | some x => decide (x ≠ 0)

/-- Normalized cutoff argument passed to the Butterworth design routine. -/
inductive WnVal where
  | band (lo hi : ℚ)
  | single (w : ℚ)
deriving Repr, DecidableEq

/-- Oracle for `scipy.signal.butter` followed by `scipy.signal.filtfilt`:
order, btype, normalized cutoffs, data. `Except.error` models a raised
exception (e.g. a data segment too short for `filtfilt`). -/
abbrev FiltFn := ℕ → String → WnVal → Mat → Except String Mat

/-- Oracle for `scipy.signal.iirnotch` + `filtfilt`: w0, Q, data. -/
abbrev NotchFn := ℚ → ℚ → Mat → Except String Mat

/-- Fall back to the unfiltered input when the numeric kernel raises
(the try/except blocks in src/dsp.py). -/
def tryFilt (r : Except String Mat) (d : Mat) : Mat :=
  match r with
  | .ok y => y
  | .error _ => d

theorem tryFilt_error (e : String) (d : Mat) : tryFilt (.error e) d = d := rfl

/-! ## SignalFilters (src/dsp.py) -/

/-- `butter_filter` (src/dsp.py lines 10-60). Mode selection follows the
Python truthiness chain `if f_low and f_high / elif f_high / elif f_low`;
`data is None` is subsumed into the empty-size check. -/
def butter_filter (o : FiltFn) (data : Mat) (fs : ℚ)
    (f_low f_high : Option ℚ) (order : ℕ) : Mat :=
  if fs ≤ 0 ∨ dataSize data = 0 then data
  else
    let nyq := fs / 2
    if truthy f_low = true ∧ truthy f_high = true then
      let lo := f_low.getD 0
      let hi := f_high.getD 0
      if hi ≤ lo ∨ nyq ≤ hi then data
      else tryFilt (o order "band" (.band (lo / nyq) (hi / nyq)) data) data
    else if truthy f_high = true then
      let hi := f_high.getD 0
      if nyq ≤ hi then data
      else tryFilt (o order "low" (.single (hi / nyq)) data) data
    else if truthy f_low = true then
      let lo := f_low.getD 0
      if nyq ≤ lo then data
      else tryFilt (o order "high" (.single (lo / nyq)) data) data
    else data

/-- `notch_filter` (src/dsp.py lines 63-84). -/
def notch_filter (o : NotchFn) (data : Mat) (fs : ℚ) (freq Q : ℚ) : Mat :=
  if fs ≤ 0 ∨ dataSize data = 0 then data
  else
    let w0 := freq / (fs / 2)
    if 1 ≤ w0 ∨ w0 ≤ 0 then data
    else tryFilt (o w0 Q data) data

/-- C9: `butter_filter` is the identity in every fallback case: non-positive
sample rate, empty data, both cutoffs absent, band mode (both cutoffs truthy)
with `f_low ≥ f_high` or `f_high ≥ Nyquist`, low-pass mode with
`f_high ≥ Nyquist`, high-pass mode with `f_low ≥ Nyquist`, and whenever the
underlying numerical filtering raises. -/
theorem butter_filter_identity_fallbacks (o : FiltFn) (data : Mat) (fs : ℚ)
    (f_low f_high : Option ℚ) (order : ℕ) :
    (fs ≤ 0 → butter_filter o data fs f_low f_high order = data) ∧
    (dataSize data = 0 → butter_filter o data fs f_low f_high order = data) ∧
    (f_low = none → f_high = none →
      butter_filter o data fs f_low f_high order = data) ∧
    (truthy f_low = true → truthy f_high = true →
      (f_high.getD 0 ≤ f_low.getD 0 ∨ fs / 2 ≤ f_high.getD 0) →
      butter_filter o data fs f_low f_high order = data) ∧
    (truthy f_low = false → truthy f_high = true → fs / 2 ≤ f_high.getD 0 →
      butter_filter o data fs f_low f_high order = data) ∧
    (truthy f_low = true → truthy f_high = false → fs / 2 ≤ f_low.getD 0 →
      butter_filter o data fs f_low f_high order = data) ∧
    ((∀ ord bt wn d, ∃ e, o ord bt wn d = Except.error e) →
      butter_filter o data fs f_low f_high order = data) := by
  refine ⟨?_, ?_, ?_, ?_, ?_, ?_, ?_⟩
  · intro h
    simp only [butter_filter]
    rw [if_pos (Or.inl h)]
  · intro h
    simp only [butter_filter]
    rw [if_pos (Or.inr h)]
  · intro hl hh
    subst hl; subst hh
    simp only [butter_filter, truthy]
    split_ifs <;> first | rfl | simp_all
  · intro hl hh hbad
    by_cases h0 : fs ≤ 0 ∨ dataSize data = 0
    · simp only [butter_filter]; rw [if_pos h0]
    · simp only [butter_filter]
      rw [if_neg h0, if_pos ⟨hl, hh⟩, if_pos hbad]
  · intro hl hh hbad
    by_cases h0 : fs ≤ 0 ∨ dataSize data = 0
    · simp only [butter_filter]; rw [if_pos h0]
    · simp only [butter_filter]
      rw [if_neg h0, if_neg (by simp [hl]), if_pos hh, if_pos hbad]
  · intro hl hh hbad
    by_cases h0 : fs ≤ 0 ∨ dataSize data = 0
    · simp only [butter_filter]; rw [if_pos h0]
    · simp only [butter_filter]
      rw [if_neg h0, if_neg (by simp [hh]), if_neg (by simp [hh]), if_pos hl,
        if_pos hbad]
  · intro hfail
    simp only [butter_filter]
    split_ifs <;>
      first
      | rfl
      | (obtain ⟨e, he⟩ := hfail order "band"
            (.band (f_low.getD 0 / (fs / 2)) (f_high.getD 0 / (fs / 2))) data
         rw [he, tryFilt_error])
      | (obtain ⟨e, he⟩ := hfail order "low"
            (.single (f_high.getD 0 / (fs / 2))) data
         rw [he, tryFilt_error])
      | (obtain ⟨e, he⟩ := hfail order "high"
            (.single (f_low.getD 0 / (fs / 2))) data
         rw [he, tryFilt_error])

/-- C9 witness: a failing kernel on concrete in-band arguments still yields
the unfiltered input, and the no-cutoff call is the identity. -/
theorem butter_filter_identity_witness :
    butter_filter (fun _ _ _ _ => Except.error "fail") [[1], [2]] 250
      (some 8) (some 30) 4 = [[1], [2]] :=
  (butter_filter_identity_fallbacks (fun _ _ _ _ => Except.error "fail")
    [[1], [2]] 250 (some 8) (some 30) 4).2.2.2.2.2.2
    (fun _ _ _ _ => ⟨"fail", rfl⟩)

/-! ## TCP binary framing (src/eeg_worker.py lines 137-141 and 208-238)

Floats are represented by their IEEE-754 bit patterns (natural numbers below
`2 ^ 32`); `struct.unpack` of little-endian 32-bit floats is the bijection
between 4-byte groups and those patterns, so equality of patterns is equality
of the decoded float values. -/

/-- Little-endian 32-bit word decoding of a byte stream, as performed by
`struct.unpack` with format `<` and 360 `f` items on an exact buffer. -/
def chunks4 : List ℕ → List ℕ
  | b0 :: b1 :: b2 :: b3 :: rest =>
      (b0 + 256 * b1 + 65536 * b2 + 16777216 * b3) :: chunks4 rest
  | _ => []

/-- `np.reshape(rows, cols)` on a flat vector with exactly `rows * cols`
elements. -/
def reshapeRows {α : Type} (cols : ℕ) : ℕ → List α → List (List α)
  | 0, _ => []
  | r + 1, l => l.take cols :: reshapeRows cols r (l.drop cols)

/-- NeuSenW TCP parameters forced in the tcp branch: 9 channels, 40 points. -/
def tcpChannels : ℕ := 9

def tcpPoints : ℕ := 40

/-- `bufsize = n_ch * pack_points * 4 = 1440` bytes. -/
def tcpBufsize : ℕ := tcpChannels * tcpPoints * 4

/-- Outcome of one iteration of the tcp streaming loop for a received buffer:
a fatal error (exception escapes to the outer handler and terminates the
loop), a dropped frame (`continue`), or an emitted chunk. -/
inductive TcpRead where
  | fatal (msg : String)
  | dropped
  | chunk (m : List (List ℕ))
deriving Repr, DecidableEq

/-- One iteration of the tcp receive loop (lines 216-233): an empty receive
raises (peer closed), a wrong-length buffer is a dropped frame, and an exact
1440-byte buffer is decoded as little-endian 32-bit floats reshaped to
(40, 9) and emitted. -/
def tcpStep (raw : List ℕ) : TcpRead :=
  if raw.length = 0 then .fatal "远程主机关闭了连接"
  else if raw.length ≠ tcpBufsize then .dropped
  else .chunk (reshapeRows tcpChannels tcpPoints (chunks4 raw))

/-- Little-endian byte encoding of one 32-bit word. -/
def encodeWord (w : ℕ) : List ℕ :=
  [w % 256, w / 256 % 256, w / 65536 % 256, w / 16777216 % 256]

/-- Row-major little-endian encoding of a (40, 9) float matrix into the
1440-byte wire packet. -/
def encodeMatrix (m : List (List ℕ)) : List ℕ :=
  (m.flatten.map encodeWord).flatten

theorem chunks4_encodeWord_append (w : ℕ) (hw : w < 2 ^ 32) (l : List ℕ) :
    chunks4 (encodeWord w ++ l) = w :: chunks4 l := by
  simp only [encodeWord, List.cons_append, List.nil_append, chunks4]
  congr 1
  omega

theorem chunks4_encode (ws : List ℕ) (h : ∀ w ∈ ws, w < 2 ^ 32) :
    chunks4 ((ws.map encodeWord).flatten) = ws := by
  induction ws with
  | nil => rfl
  | cons w rest ih =>
    simp only [List.map_cons, List.flatten_cons]
    rw [chunks4_encodeWord_append w (h w (by simp)) _]
    rw [ih (fun v hv => h v (by simp [hv]))]

theorem reshapeRows_flatten {α : Type} (m : List (List α)) (c : ℕ)
    (h : ∀ r ∈ m, r.length = c) :
    reshapeRows c m.length m.flatten = m := by
  induction m with
  | nil => rfl
  | cons r rest ih =>
    simp only [List.length_cons, List.flatten_cons, reshapeRows]
    rw [List.take_left' (h r (by simp)), List.drop_left' (h r (by simp))]
    rw [ih (fun s hs => h s (by simp [hs]))]

theorem length_encode_flatten (ws : List ℕ) :
    ((ws.map encodeWord).flatten).length = 4 * ws.length := by
  induction ws with
  | nil => rfl
  | cons w rest ih =>
    simp only [List.map_cons, List.flatten_cons, List.length_append, ih,
      encodeWord, List.length_cons]
    simp [List.length_cons]
    omega

/-- C4: the tcp loop decodes an exact 1440-byte packet of little-endian
32-bit floats into the (40, 9) row-major matrix of the encoded values and
emits it; a non-empty receive of any other length is a dropped frame; an
empty receive is the fatal peer-closed error. -/
theorem tcp_framing_correct :
    (∀ m : List (List ℕ), m.length = tcpPoints →
      (∀ r ∈ m, r.length = tcpChannels) →
      (∀ r ∈ m, ∀ v ∈ r, v < 2 ^ 32) →
      tcpStep (encodeMatrix m) = .chunk m) ∧
    (∀ raw : List ℕ, raw ≠ [] → raw.length ≠ tcpBufsize →
      tcpStep raw = .dropped) ∧
    tcpStep [] = .fatal "远程主机关闭了连接" := by
  refine ⟨?_, ?_, rfl⟩
  · intro m hrows hcols hval
    have hflatlen : m.flatten.length = tcpPoints * tcpChannels := by
      rw [List.length_flatten]
      have : m.map List.length = List.replicate m.length tcpChannels := by
        refine List.eq_replicate_iff.mpr ⟨by simp, ?_⟩
        intro x hx
        obtain ⟨r, hr, hxr⟩ := List.mem_map.mp hx
        rw [← hxr]; exact hcols r hr
      rw [this, List.sum_replicate, smul_eq_mul, hrows]
    have hlen : (encodeMatrix m).length = tcpBufsize := by
      rw [encodeMatrix, length_encode_flatten, hflatlen]
      rfl
    have hwords : chunks4 (encodeMatrix m) = m.flatten := by
      rw [encodeMatrix]
      exact chunks4_encode _ (by
        intro w hw
        obtain ⟨r, hr, hwr⟩ := List.mem_flatten.mp hw
        exact hval r hr w hwr)
    rw [tcpStep, if_neg (by rw [hlen]; decide), if_neg (by rw [hlen]; simp)]
    rw [hwords, ← hrows, reshapeRows_flatten m tcpChannels hcols]
  · intro raw hne hlen
    rw [tcpStep, if_neg (by simpa using hne), if_pos hlen]

set_option maxRecDepth 8000 in
/-- C4 witness: a concrete (40, 9) matrix round-trips through the wire
encoding, a 1439-byte buffer is dropped, and an empty receive is fatal. -/
theorem tcp_framing_witness :
    tcpStep (encodeMatrix (List.replicate 40 [1, 2, 3, 4, 5, 6, 7, 8, 9])) =
      .chunk (List.replicate 40 [1, 2, 3, 4, 5, 6, 7, 8, 9]) ∧
    tcpStep (List.replicate 1439 0) = .dropped ∧
    tcpStep [] = .fatal "远程主机关闭了连接" :=
  ⟨tcp_framing_correct.1 _ (by decide) (by decide) (by decide),
   tcp_framing_correct.2.1 _ (by simp) (by simp [tcpBufsize, tcpChannels, tcpPoints]),
   tcp_framing_correct.2.2⟩

/-! ## Linear-algebra primitives over ℚ -/

def dotL (a b : List ℚ) : ℚ := (List.zipWith (· * ·) a b).sum

/-- Numpy transpose of a rectangular 2-D array (`.T`, also `np.array(rows).T`). -/
def npT (m : Mat) : Mat :=
  (List.range (m.headD []).length).map (fun j => m.map (fun r => r.getD j 0))

/-- `np.dot` of two 2-D arrays. -/
def matMul (a b : Mat) : Mat :=
  a.map (fun r => (npT b).map (fun col => dotL r col))

def matAdd (a b : Mat) : Mat :=
  List.zipWith (fun r s => List.zipWith (· + ·) r s) a b

/-- Elementwise division by a scalar (`c /= np.trace(c)` and `C_sum / n`);
division by zero is numpy nan, which the ℚ embedding identifies on both the
code and the specification side as `0`. -/
def matDivScalar (m : Mat) (t : ℚ) : Mat := m.map (fun r => r.map (· / t))

def trace (m : Mat) : ℚ :=
  ((List.range m.length).map (fun i => (m.getD i []).getD i 0)).sum

def zeroMat (nr nc : ℕ) : Mat := List.replicate nr (List.replicate nc 0)

def listMean (r : List ℚ) : ℚ := r.sum / r.length

/-- Per-row (channel) mean removal: `trial - trial.mean(axis=1, keepdims=True)`. -/
def centerRows (m : Mat) : Mat := m.map (fun r => r.map (fun x => x - listMean r))

/-- Population variance of a row (`np.var(·, axis=1)` per component, ddof 0). -/
def rowVar (r : List ℚ) : ℚ := (r.map (fun x => (x - listMean r) ^ 2)).sum / r.length

/-! ## Stable sorting and the argsort model -/

def insertLe {α : Type} (le : α → α → Bool) (x : α) : List α → List α
  | [] => [x]
  | y :: ys => if le y x then y :: insertLe le x ys else x :: y :: ys

/-- Stable insertion sort: later elements are placed after equal earlier ones. -/
def stableSortBy {α : Type} (le : α → α → Bool) (l : List α) : List α :=
  l.foldl (fun acc x => insertLe le x acc) []

/-- Model of `np.argsort` on a float vector: index order sorted ascending by
value (the tie order of the library sort is abstracted by this fixed stable
sort; both the code path and the specification refer to the same ordering). -/
def npArgsort (l : List ℚ) : List ℕ :=
  stableSortBy (fun i j => decide (l.getD i 0 ≤ l.getD j 0)) (List.range l.length)

/-- `np.argsort(np.abs(vals))[::-1]`: indices by descending absolute value. -/
def argsortAbsDesc (vals : List ℚ) : List ℕ :=
  (npArgsort (vals.map (fun v => |v|))).reverse

/-- Model of `np.unique`: sorted distinct values. -/
def npUnique (l : List ℤ) : List ℤ :=
  stableSortBy (fun a b => decide (a ≤ b)) l.dedup

/-! ## Column operations (numpy slicing on axis 1) -/

/-- Fancy indexing of columns, `m[:, ix]`. -/
def colReorder (m : Mat) (ix : List ℕ) : Mat :=
  m.map (fun r => ix.map (fun i => r.getD i 0))

/-- `m[:, :k]`. -/
def colTake (k : ℕ) (m : Mat) : Mat := m.map (fun r => r.take k)

/-- `m[:, -k:]` with Python negative-index semantics (in particular `-0`
selects every column). -/
def colLastPy (k : ℕ) (m : Mat) : Mat := m.map (fun r => pyDrop (-(k : ℤ)) r)

/-- `np.concatenate([a, b], axis=1)`. -/
def hcat (a b : Mat) : Mat := List.zipWith (· ++ ·) a b

/-! ## CSP (src/models.py) -/

/-- A numpy array argument of dynamic rank, as passed to `CSP.fit` and
`CSP.transform`. -/
inductive PyArray where
  | a1 (v : List ℚ)
  | a2 (m : Mat)
  | a3 (t : List Mat)

def PyArray.ndim : PyArray → ℕ
  | .a1 _ => 1
  | .a2 _ => 2
  | .a3 _ => 3

/-- Oracle for `scipy.linalg.eigh(a, b)` (and, for the legacy backend,
`scipy.linalg.eig`): eigenvalues and the matrix whose columns are the
eigenvectors, or a raised `LinAlgError`/`ValueError` (e.g. on nan input,
which genuinely occurs after a zero-trace division). -/
abbrev EighFn := Mat → Mat → Except String (List ℚ × Mat)

/-- Oracle for `np.log` on a ℚ-represented float. -/
abbrev LogFn := ℚ → ℚ

structure CSPState where
  n_components : ℕ
  backend : String
  filters_ : Option Mat
deriving Repr, DecidableEq

/-- `CSP.__init__`. -/
def cspNew (k : ℕ) (backend : String) : CSPState := ⟨k, backend, none⟩

/-- `CSP._fit_vectorized` (src/models.py lines 97-138). The call
`scipy.linalg.eigh(cov0, cov_combined)` solves the generalized eigenproblem
`cov0 · w = λ · cov_combined · w`. -/
def fitVectorized (e : EighFn) (c : CSPState) (X : List Mat) (y : List ℤ)
    (classes : List ℤ) : Except String CSPState :=
  let n_channels := (X.headD []).length
  let covs := classes.map (fun cls =>
    let Xcls := (X.zip y).filterMap (fun p => if p.2 = cls then some p.1 else none)
    let Csum := Xcls.foldl (fun acc trial =>
      let tr := centerRows trial
      let cmat := matMul tr (npT tr)
      matAdd acc (matDivScalar cmat (trace cmat))) (zeroMat n_channels n_channels)
    matDivScalar Csum (Xcls.length : ℚ))
  let cov0 := covs.getD 0 (zeroMat n_channels n_channels)
  let cov1 := covs.getD 1 (zeroMat n_channels n_channels)
  let cov_combined := matAdd cov0 cov1
  match e cov0 cov_combined with
  | .error msg => .error msg
  | .ok (eigvals, eigvecs) =>
    let ix := argsortAbsDesc eigvals
    let sorted := colReorder eigvecs ix
    let m := c.n_components / 2
    let filters_top := colTake m sorted
    let filters_bot := colLastPy m sorted
    .ok { c with filters_ := some (npT (hcat filters_top filters_bot)) }

/-- `CSP._fit_loop` (src/models.py lines 140-193), the legacy backend. The
complex-valued `scipy.linalg.eig(cov_combined, cov0)` is abstracted by the
same real oracle signature; no claim concerns this backend and the
specification flags it as an unverified legacy path. -/
def fitLoop (e : EighFn) (c : CSPState) (X : List Mat) (y : List ℤ)
    (classes : List ℤ) : Except String CSPState :=
  let n_channels := (X.headD []).length
  let covSums := (X.zip y).foldl (fun (acc : Mat × Mat) p =>
      let cmat := matMul p.1 (npT p.1)
      let cnorm := matDivScalar cmat (trace cmat)
      if p.2 = classes.getD 0 0 then (matAdd acc.1 cnorm, acc.2)
      else (acc.1, matAdd acc.2 cnorm))
    (zeroMat n_channels n_channels, zeroMat n_channels n_channels)
  let n0 := (y.filter (fun v => v = classes.getD 0 0)).length
  let n1 := (y.filter (fun v => v = classes.getD 1 0)).length
  let cov0 := matDivScalar covSums.1 (n0 : ℚ)
  let cov1 := matDivScalar covSums.2 (n1 : ℚ)
  let cov_combined := matAdd cov0 cov1
  match e cov_combined cov0 with
  | .error msg => .error msg
  | .ok (vals, vecs) =>
    let sort_indices := argsortAbsDesc vals
    let u_mat := npT (colReorder vecs sort_indices)
    let m := c.n_components / 2
    let f1 := u_mat.take m
    let f2 := pyDrop (-(m : ℤ)) u_mat
    .ok { c with filters_ := some (f1 ++ f2) }

/-- `CSP.fit` (src/models.py lines 36-58): validates the input rank and the
number of distinct labels, then routes to the selected backend. -/
def cspFit (e : EighFn) (c : CSPState) (X : PyArray) (y : List ℤ) :
    Except String CSPState :=
  match X with
  | .a3 X3 =>
    let classes := npUnique y
    if classes.length ≠ 2 then .error "CSP requires exactly 2 classes."
    else if c.backend = "loop" then fitLoop e c X3 y classes
    else fitVectorized e c X3 y classes
  | _ => .error "CSP fit expects 3D input: (n_trials, n_channels, n_samples)"

/-- One feature row of `CSP.transform`: project a trial through the filters,
take the per-component variance over the time axis, normalize by the total
variance, and log-transform (`lg` models `np.log`). -/
def featRow (lg : LogFn) (w : Mat) (trial : Mat) : List ℚ :=
  let z := matMul w trial
  let vars := z.map rowVar
  vars.map (fun v => lg (v / vars.sum))

/-- Degenerate 1-D branch of `transform`: `np.dot(filters_, X[i])` with a
scalar `X[i]` is scalar multiplication of the filter matrix. -/
def scalarFeatRow (lg : LogFn) (w : Mat) (x : ℚ) : List ℚ :=
  let z := w.map (fun r => r.map (fun a => a * x))
  let vars := z.map rowVar
  vars.map (fun v => lg (v / vars.sum))

/-- `CSP.transform` (src/models.py lines 60-95). A 2-D input is promoted to a
one-trial batch; with no fitted filters a `RuntimeError` is raised; the numpy
row assignment `feats[i] = ...` into the preallocated
`(n_trials, n_components)` array raises a broadcast error unless each feature
row has exactly `n_components` entries. -/
def cspTransform (lg : LogFn) (c : CSPState) (X : PyArray) :
    Except String Mat :=
  match c.filters_ with
  | none => .error "CSP not fitted yet!"
  | some w =>
    let rows :=
      match X with
      | .a1 v => v.map (scalarFeatRow lg w)
      | .a2 m => [featRow lg w m]
      | .a3 t => t.map (featRow lg w)
    if rows.all (fun r => r.length = c.n_components) then .ok rows
    else .error "could not broadcast feature row"

/-! ## Specification-side CSP pipeline (C1 wording)

These definitions follow the words of the specification, to be compared with
the embedding of `_fit_vectorized` above. -/

/-- Spec side, one trial: the channel-covariance matrix with the per-trial
channel mean removed first, normalized by its own trace. -/
def specNormCov (trial : Mat) : Mat :=
  let t0 := centerRows trial
  let cmat := matMul t0 (npT t0)
  matDivScalar cmat (trace cmat)

/-- Spec side, one class: the per-trial normalized covariances averaged
across the class's trials. -/
def specClassCov (X : List Mat) (y : List ℤ) (cls : ℤ) (nc : ℕ) : Mat :=
  let ts := (X.zip y).filterMap (fun p => if p.2 = cls then some p.1 else none)
  matDivScalar ((ts.map specNormCov).foldl matAdd (zeroMat nc nc))
    (ts.length : ℚ)

/-- Spec side, filter assembly: solve the generalized eigenproblem
`cov_class0 · w = λ · (cov_class0 + cov_class1) · w`, sort the eigenvectors
by descending absolute eigenvalue, concatenate the first `k / 2` and the last
`k / 2` of them, and transpose to shape `(k, n_channels)`. -/
def specCSPFilters (e : EighFn) (k : ℕ) (X : List Mat) (y : List ℤ) :
    Except String Mat :=
  let nc := (X.headD []).length
  let classes := npUnique y
  let cov0 := specClassCov X y (classes.getD 0 0) nc
  let cov1 := specClassCov X y (classes.getD 1 0) nc
  match e cov0 (matAdd cov0 cov1) with
  | .error msg => .error msg
  | .ok (vals, vecs) =>
    let sorted := colReorder vecs (argsortAbsDesc vals)
    let first := colTake (k / 2) sorted
    let lastC := sorted.map (fun r => r.drop (r.length - k / 2))
    .ok (npT (hcat first lastC))

/-! ## Shape lemmas -/

theorem length_insertLe {α : Type} (le : α → α → Bool) (x : α) (l : List α) :
    (insertLe le x l).length = l.length + 1 := by
  induction l with
  | nil => rfl
  | cons y ys ih =>
    rw [insertLe]
    split
    · simp [ih]
    · simp

theorem length_stableSortBy {α : Type} (le : α → α → Bool) (l : List α) :
    (stableSortBy le l).length = l.length := by
  suffices h : ∀ acc : List α,
      (l.foldl (fun acc x => insertLe le x acc) acc).length =
        acc.length + l.length by
    simpa using h []
  induction l with
  | nil => intro acc; simp
  | cons x xs ih =>
    intro acc
    simp only [List.foldl_cons, ih, length_insertLe, List.length_cons]
    omega

theorem length_npArgsort (l : List ℚ) : (npArgsort l).length = l.length := by
  simp [npArgsort, length_stableSortBy]

theorem length_argsortAbsDesc (l : List ℚ) :
    (argsortAbsDesc l).length = l.length := by
  simp [argsortAbsDesc, length_npArgsort]

theorem npT_length (m : Mat) : (npT m).length = (m.headD []).length := by
  simp [npT]

theorem mem_npT_length (m : Mat) (r : List ℚ) (h : r ∈ npT m) :
    r.length = m.length := by
  simp only [npT, List.mem_map, List.mem_range] at h
  obtain ⟨j, _, hj⟩ := h
  rw [← hj]
  simp

theorem featRow_length (lg : LogFn) (w : Mat) (t : Mat) :
    (featRow lg w t).length = w.length := by
  simp [featRow, matMul]

/-! ## C5 and C6 -/

/-- C5: for a fitted CSP model whose filter matrix has `k` rows (as `fit`
with `n_components = k` produces), `transform` of a 3-D batch succeeds and
returns one log-variance feature row per trial — each obtained by projecting
the trial through `filters_`, taking per-component variance over the time
axis, and applying `log(var / sum var)` — each of length `k`; a single 2-D
trial is treated exactly as a one-trial batch. -/
theorem csp_transform_features (lg : LogFn) (c : CSPState) (w : Mat) (k : ℕ)
    (hw : c.filters_ = some w) (hk : c.n_components = k) (hwk : w.length = k)
    (X : List Mat) (m2 : Mat) :
    cspTransform lg c (.a3 X) = .ok (X.map (featRow lg w)) ∧
    (X.map (featRow lg w)).length = X.length ∧
    (∀ r ∈ X.map (featRow lg w), r.length = k) ∧
    cspTransform lg c (.a2 m2) = cspTransform lg c (.a3 [m2]) := by
  have hall : ∀ r ∈ X.map (featRow lg w), r.length = k := by
    intro r hr
    obtain ⟨t, _, ht⟩ := List.mem_map.mp hr
    rw [← ht, featRow_length, hwk]
  refine ⟨?_, by simp, hall, ?_⟩
  · simp only [cspTransform, hw]
    rw [if_pos]
    rw [List.all_eq_true]
    intro r hr
    rw [hall r hr, hk]
    simp
  · simp only [cspTransform, hw, List.map_cons, List.map_nil]

/-- C5 witness: identity filters on a concrete one-trial batch. -/
theorem csp_transform_features_witness :
    cspTransform (fun x => x) ⟨2, "vectorized", some [[1, 0], [0, 1]]⟩
        (.a3 [[[1, 2], [3, 4]]]) =
      .ok ([[[1, 2], [3, 4]]].map (featRow (fun x => x) [[1, 0], [0, 1]])) ∧
    cspTransform (fun x => x) ⟨2, "vectorized", some [[1, 0], [0, 1]]⟩
        (.a2 [[1, 2], [3, 4]]) =
      cspTransform (fun x => x) ⟨2, "vectorized", some [[1, 0], [0, 1]]⟩
        (.a3 [[[1, 2], [3, 4]]]) := by
  have h := csp_transform_features (fun x => x)
    ⟨2, "vectorized", some [[1, 0], [0, 1]]⟩ [[1, 0], [0, 1]] 2 rfl rfl
    (by decide) [[[1, 2], [3, 4]]] [[1, 2], [3, 4]]
  exact ⟨h.1, h.2.2.2⟩

/-- C6: `transform` raises for every input when the model has no fitted
filters, and `fit` raises whenever the input is not 3-dimensional or the
labels do not contain exactly two distinct values. -/
theorem csp_validation_errors (e : EighFn) (lg : LogFn) (c : CSPState) :
    (∀ X, c.filters_ = none → ∃ msg, cspTransform lg c X = .error msg) ∧
    (∀ X y, X.ndim ≠ 3 → ∃ msg, cspFit e c X y = .error msg) ∧
    (∀ X y, (npUnique y).length ≠ 2 → ∃ msg, cspFit e c X y = .error msg) := by
  refine ⟨?_, ?_, ?_⟩
  · intro X h
    exact ⟨"CSP not fitted yet!", by simp [cspTransform, h]⟩
  · intro X y h
    cases X with
    | a1 v => exact ⟨_, rfl⟩
    | a2 m => exact ⟨_, rfl⟩
    | a3 t => exact absurd rfl h
  · intro X y h
    cases X with
    | a1 v => exact ⟨_, rfl⟩
    | a2 m => exact ⟨_, rfl⟩
    | a3 t =>
      exact ⟨"CSP requires exactly 2 classes.", by simp [cspFit, if_pos h]⟩

/-- C6 witness: an unfitted model rejects transform; fit rejects a 2-D input
and a single-class label vector. -/
theorem csp_validation_errors_witness :
    (∃ msg, cspTransform (fun x => x) (cspNew 4 "vectorized") (.a2 [[1]]) =
      .error msg) ∧
    (∃ msg, cspFit (fun _ _ => .ok ([], [])) (cspNew 4 "vectorized")
      (.a2 [[1]]) [0, 1] = .error msg) ∧
    (∃ msg, cspFit (fun _ _ => .ok ([], [])) (cspNew 4 "vectorized")
      (.a3 [[[1]]]) [0] = .error msg) := by
  have h := csp_validation_errors (fun _ _ => .ok ([], [])) (fun x => x)
    (cspNew 4 "vectorized")
  exact ⟨h.1 _ rfl, h.2.1 _ [0, 1] (by decide), h.2.2 _ [0] (by decide)⟩

/-! ## C1: the vectorized fit against the specification wording -/

theorem colLastPy_eq_dropLast (m : ℕ) (hm : 0 < m) (M : Mat) :
    colLastPy m M = M.map (fun r => r.drop (r.length - m)) := by
  simp only [colLastPy, pyDrop_neg m hm]

theorem mem_colReorder_length (M : Mat) (ix : List ℕ) (r : List ℚ)
    (h : r ∈ colReorder M ix) : r.length = ix.length := by
  simp only [colReorder, List.mem_map] at h
  obtain ⟨s, _, hs⟩ := h
  rw [← hs]
  simp

/-- C1: `CSP.fit` with the default vectorized backend computes exactly the
specification pipeline: per-class mean-removed trace-normalized trial
covariances averaged over the class, the generalized eigenproblem
`cov_class0 · w = λ · (cov_class0 + cov_class1) · w`, eigenvectors sorted by
descending absolute eigenvalue, and `filters_` the concatenation of the first
and last `k / 2` eigenvectors transposed to shape `(k, n_channels)`. -/
theorem csp_fit_vectorized_matches_spec (e : EighFn) (k : ℕ) (X : List Mat)
    (y : List ℤ) (nc : ℕ) (hnc : nc = (X.headD []).length)
    (hcls : (npUnique y).length = 2) (hm : 0 < k / 2) (hk2 : k / 2 * 2 = k)
    (hmnc : k / 2 ≤ nc)
    (hE : ∀ vals vecs,
      e (specClassCov X y ((npUnique y).getD 0 0) nc)
        (matAdd (specClassCov X y ((npUnique y).getD 0 0) nc)
          (specClassCov X y ((npUnique y).getD 1 0) nc)) =
        Except.ok (vals, vecs) →
      vals.length = nc ∧ vecs.length = nc ∧ ∀ r ∈ vecs, r.length = nc) :
    cspFit e (cspNew k "vectorized") (.a3 X) y =
      (specCSPFilters e k X y).map
        (fun F => { n_components := k, backend := "vectorized",
                    filters_ := some F }) ∧
    ∀ F, specCSPFilters e k X y = .ok F →
      F.length = k ∧ ∀ r ∈ F, r.length = nc := by
  obtain ⟨c0, c1, hcl⟩ := List.length_eq_two.mp hcls
  have hgd0 : (npUnique y).getD 0 0 = c0 := by rw [hcl]; rfl
  have hgd1 : (npUnique y).getD 1 0 = c1 := by rw [hcl]; rfl
  rw [hgd0, hgd1] at hE
  constructor
  · -- the fit result is the spec pipeline
    simp only [cspFit, cspNew]
    rw [if_neg (fun h => h hcls), if_neg (by decide)]
    simp only [fitVectorized, specCSPFilters, specClassCov, specNormCov,
      List.foldl_map, hcl, hgd0, hgd1, List.map_cons, List.map_nil,
      List.getD_cons_zero, List.getD_cons_succ, ← hnc,
      colLastPy_eq_dropLast (k / 2) hm]
    cases heq : e (specClassCov X y c0 nc)
        (matAdd (specClassCov X y c0 nc) (specClassCov X y c1 nc)) with
    | error msg =>
      simp only [specClassCov, specNormCov, List.foldl_map] at heq
      rw [heq]
      rfl
    | ok p =>
      obtain ⟨vals, vecs⟩ := p
      simp only [specClassCov, specNormCov, List.foldl_map] at heq
      rw [heq]
      rfl
  · -- the spec pipeline result has shape (k, nc)
    intro F hF
    simp only [specCSPFilters, hcl, hgd0, hgd1, List.getD_cons_zero,
      List.getD_cons_succ, ← hnc] at hF
    cases heq : e (specClassCov X y c0 nc)
        (matAdd (specClassCov X y c0 nc) (specClassCov X y c1 nc)) with
    | error msg =>
      rw [heq] at hF
      cases hF
    | ok p =>
      obtain ⟨vals, vecs⟩ := p
      rw [heq] at hF
      obtain ⟨hvl, hvcl, hvrow⟩ := hE vals vecs heq
      simp only at hF
      injection hF with hF
      -- the concatenated-and-transposed filter matrix
      set sorted := colReorder vecs (argsortAbsDesc vals) with hsorted
      have hrowlen : ∀ r ∈ sorted, r.length = nc := by
        intro r hr
        rw [mem_colReorder_length vecs _ r hr, length_argsortAbsDesc, hvl]
      have hslen : sorted.length = nc := by
        rw [hsorted]; simp [colReorder, hvcl]
      have hcombine :
          hcat (colTake (k / 2) sorted)
            (sorted.map (fun r => r.drop (r.length - k / 2))) =
          sorted.map (fun r => r.take (k / 2) ++ r.drop (r.length - k / 2)) := by
        simp only [hcat, colTake]
        rw [List.zipWith_map_left, List.zipWith_map_right, List.zipWith_same]
      rw [hcombine] at hF
      have hsne : sorted ≠ [] := by
        intro hnil
        rw [hnil] at hslen
        simp at hslen
        omega
      obtain ⟨s0, rest, hs0⟩ := List.exists_cons_of_ne_nil hsne
      have hs0len : s0.length = nc := hrowlen s0 (by rw [hs0]; exact List.mem_cons_self _ _)
      have hheadlen :
          ((sorted.map (fun r => r.take (k / 2) ++ r.drop (r.length - k / 2))).headD
            []).length = k := by
        rw [hs0]
        simp only [List.map_cons, List.headD_cons, List.length_append,
          List.length_take, List.length_drop, hs0len]
        omega
      constructor
      · rw [← hF, npT_length, hheadlen]
      · intro r hr
        rw [← hF] at hr
        rw [mem_npT_length _ r hr]
        simp only [List.length_map]
        rw [hslen]

/-- C1 witness: two 2-channel trials per class, a concrete eigensolver
output of the right shape. -/
theorem csp_fit_vectorized_matches_spec_witness :
    (cspFit (fun _ _ => Except.ok ([1, 2], [[1, 0], [0, 1]]))
        (cspNew 4 "vectorized")
        (.a3 [[[1, 0], [0, 1]], [[2, 0], [0, 1]]]) [0, 1] =
      (specCSPFilters (fun _ _ => Except.ok ([1, 2], [[1, 0], [0, 1]])) 4
          [[[1, 0], [0, 1]], [[2, 0], [0, 1]]] [0, 1]).map
        (fun F => { n_components := 4, backend := "vectorized",
                    filters_ := some F })) ∧
    ∀ F, specCSPFilters (fun _ _ => Except.ok ([1, 2], [[1, 0], [0, 1]])) 4
        [[[1, 0], [0, 1]], [[2, 0], [0, 1]]] [0, 1] = .ok F →
      F.length = 4 ∧ ∀ r ∈ F, r.length = 2 :=
  csp_fit_vectorized_matches_spec _ 4 _ _ 2 rfl (by decide) (by decide)
    (by decide) (by decide)
    (fun vals vecs h => by
      cases h
      exact ⟨by decide, by decide, by decide⟩)

/-! ## CalibrationSession (src/eeg_module.py lines 342-391) -/

structure CaptureState where
  target : String
  needed : ℕ
  collected : ℕ
  samplesNeeded : ℕ
  buffer : List (List ℚ)
deriving Repr, DecidableEq

structure EEGModuleState where
  captureState : Option CaptureState
  trainLeft : List Mat
  trainRight : List Mat
deriving Repr, DecidableEq

/-- `self._train_samples[target]`, the per-class TrialSet. -/
def trialsOf (st : EEGModuleState) (target : String) : List Mat :=
  if target = "left" then st.trainLeft else st.trainRight

def setTrials (st : EEGModuleState) (target : String) (ts : List Mat) :
    EEGModuleState :=
  if target = "left" then { st with trainLeft := ts }
  else { st with trainRight := ts }

/-- `EEGModule._start_capture` (lines 349-366): refuse when already
capturing, otherwise clear the target TrialSet and enter Capturing with
`needed = count`, `collected = 0`, an empty accumulation buffer, and
`samples_needed` derived from the window length. -/
def startCapture (st : EEGModuleState) (target : String)
    (count winSamples : ℕ) : EEGModuleState :=
  if st.captureState.isSome then st
  else
    setTrials { st with captureState := some ⟨target, count, 0, winSamples, []⟩ }
      target []

/-- The per-sample loop of `_process_capture_chunk` (lines 372-385): append
each incoming sample to the accumulation buffer; once the buffer reaches
`samples_needed`, slice it into one transposed `(n_channels, S)` trial,
append it to the TrialSet, clear the buffer and count the trial; once
`collected` reaches `needed`, finish (`_finish_capture` clears the capture
state) and break out of the remaining chunk. -/
def processSamples (cs : CaptureState) (trials : List Mat) :
    List (List ℚ) → Option CaptureState × List Mat
  | [] => (some cs, trials)
  | s :: rest =>
    let buf := cs.buffer ++ [s]
    if cs.samplesNeeded ≤ buf.length then
      let trials2 := trials ++ [npT buf]
      if cs.needed ≤ cs.collected + 1 then (none, trials2)
      else
        processSamples { cs with buffer := [], collected := cs.collected + 1 }
          trials2 rest
    else processSamples { cs with buffer := buf } trials rest

/-- `EEGModule._process_capture_chunk` on one chunk (no-op when Idle). -/
def processCaptureChunk (st : EEGModuleState) (chunk : List (List ℚ)) :
    EEGModuleState :=
  match st.captureState with
  | none => st
  | some cs =>
    let r := processSamples cs (trialsOf st cs.target) chunk
    setTrials { st with captureState := r.1 } cs.target r.2

def runCapture (st : EEGModuleState) (chunks : List (List (List ℚ))) :
    EEGModuleState :=
  chunks.foldl processCaptureChunk st

/-- Well-shaped trial windows: `n_channels` rows of `S` samples each. -/
def trialShapes (nc S : ℕ) (ts : List Mat) : Prop :=
  ∀ t ∈ ts, t.length = nc ∧ ∀ row ∈ t, row.length = S

/-- Session invariant while capturing toward `N` trials of `S` samples. -/
def CapInv (target : String) (N S nc : ℕ) (st : EEGModuleState) : Prop :=
  match st.captureState with
  | some cs =>
      cs.target = target ∧ cs.needed = N ∧ cs.samplesNeeded = S ∧
      cs.collected < N ∧ (trialsOf st target).length = cs.collected ∧
      cs.buffer.length < S ∧ (∀ r ∈ cs.buffer, r.length = nc) ∧
      trialShapes nc S (trialsOf st target)
  | none => (trialsOf st target).length = N ∧
      trialShapes nc S (trialsOf st target)

theorem trialsOf_setTrials (st : EEGModuleState) (target : String)
    (ts : List Mat) : trialsOf (setTrials st target ts) target = ts := by
  by_cases h : target = "left" <;> simp [trialsOf, setTrials, h]

theorem captureState_setTrials (st : EEGModuleState) (target : String)
    (ts : List Mat) :
    (setTrials st target ts).captureState = st.captureState := by
  by_cases h : target = "left" <;> simp [setTrials, h]

theorem headD_append_singleton (a : List (List ℚ)) (s : List ℚ) :
    (a ++ [s]).headD [] = a.headD s := by
  cases a <;> rfl

/-- Core induction for C7: the per-sample loop preserves the session
invariant, and returns a TrialSet of exactly `N` well-shaped trials when it
finishes. -/
theorem processSamples_inv (target : String) (N S nc : ℕ) (hS : 0 < S) :
    ∀ (l : List (List ℚ)) (cs : CaptureState) (trials : List Mat),
    (∀ s ∈ l, s.length = nc) →
    cs.target = target → cs.needed = N → cs.samplesNeeded = S →
    cs.collected < N → trials.length = cs.collected →
    cs.buffer.length < S → (∀ r ∈ cs.buffer, r.length = nc) →
    trialShapes nc S trials →
    (match processSamples cs trials l with
     | (some cs2, t2) =>
        cs2.target = target ∧ cs2.needed = N ∧ cs2.samplesNeeded = S ∧
        cs2.collected < N ∧ t2.length = cs2.collected ∧
        cs2.buffer.length < S ∧ (∀ r ∈ cs2.buffer, r.length = nc) ∧
        trialShapes nc S t2
     | (none, t2) => t2.length = N ∧ trialShapes nc S t2) := by
  intro l
  induction l with
  | nil =>
    intro cs trials _ h1 h2 h3 h4 h5 h6 h7 h8
    exact ⟨h1, h2, h3, h4, h5, h6, h7, h8⟩
  | cons s rest ih =>
    intro cs trials hl h1 h2 h3 h4 h5 h6 h7 h8
    have hsnc : s.length = nc := hl s (by simp)
    have hrest : ∀ x ∈ rest, x.length = nc := fun x hx => hl x (by simp [hx])
    rw [processSamples]
    have hbufnc : ∀ r ∈ cs.buffer ++ [s], r.length = nc := by
      intro r hr
      rcases List.mem_append.mp hr with h | h
      · exact h7 r h
      · rw [List.mem_singleton.mp h]; exact hsnc
    by_cases hfull : cs.samplesNeeded ≤ (cs.buffer ++ [s]).length
    · rw [if_pos hfull]
      have hblen : (cs.buffer ++ [s]).length = S := by
        simp only [List.length_append, List.length_cons, List.length_nil] at hfull ⊢
        omega
      have hseg : (npT (cs.buffer ++ [s])).length = nc ∧
          ∀ row ∈ npT (cs.buffer ++ [s]), row.length = S := by
        constructor
        · rw [npT_length, headD_append_singleton]
          cases hb : cs.buffer with
          | nil => simp [hsnc]
          | cons b bs =>
            simp only [List.headD_cons]
            exact h7 b (by rw [hb]; exact List.mem_cons_self _ _)
        · intro row hrow
          rw [mem_npT_length _ row hrow, hblen]
      have hshapes2 : trialShapes nc S (trials ++ [npT (cs.buffer ++ [s])]) := by
        intro t ht
        rcases List.mem_append.mp ht with h | h
        · exact h8 t h
        · rw [List.mem_singleton.mp h]
          exact hseg
      by_cases hdone : cs.needed ≤ cs.collected + 1
      · rw [if_pos hdone]
        refine ⟨?_, hshapes2⟩
        simp only [List.length_append, List.length_cons, List.length_nil]
        omega
      · rw [if_neg hdone]
        exact ih _ _ hrest h1 h2 h3 (by simp only at *; omega)
          (by simp only [List.length_append, List.length_cons, List.length_nil]
              omega)
          (by simpa using hS) (by simp) hshapes2
    · rw [if_neg hfull]
      refine ih _ _ hrest h1 h2 h3 h4 h5 ?_ hbufnc h8
      simp only [List.length_append, List.length_cons, List.length_nil] at hfull ⊢
      omega

theorem processCaptureChunk_inv (target : String) (N S nc : ℕ) (hS : 0 < S)
    (st : EEGModuleState) (chunk : List (List ℚ))
    (hch : ∀ s ∈ chunk, s.length = nc) (hinv : CapInv target N S nc st) :
    CapInv target N S nc (processCaptureChunk st chunk) := by
  cases hcs : st.captureState with
  | none =>
    simp only [CapInv, hcs] at hinv
    simpa only [processCaptureChunk, hcs, CapInv] using hinv
  | some cs =>
    simp only [CapInv, hcs] at hinv
    obtain ⟨h1, h2, h3, h4, h5, h6, h7, h8⟩ := hinv
    have hmain := processSamples_inv target N S nc hS chunk cs
      (trialsOf st target) hch h1 h2 h3 h4 h5 h6 h7 h8
    have hgoal : processCaptureChunk st chunk =
        setTrials
          { st with
              captureState := (processSamples cs (trialsOf st target) chunk).1 }
          target (processSamples cs (trialsOf st target) chunk).2 := by
      simp only [processCaptureChunk, hcs, h1]
    rw [hgoal]
    cases hr : processSamples cs (trialsOf st target) chunk with
    | mk ocs2 t2 =>
      rw [hr] at hmain
      cases ocs2 with
      | some cs2 =>
        obtain ⟨g1, g2, g3, g4, g5, g6, g7, g8⟩ := hmain
        simp only [CapInv, captureState_setTrials, trialsOf_setTrials]
        exact ⟨g1, g2, g3, g4, g5, g6, g7, g8⟩
      | none =>
        simp only [CapInv, captureState_setTrials, trialsOf_setTrials]
        exact hmain

theorem runCapture_inv (target : String) (N S nc : ℕ) (hS : 0 < S)
    (chunks : List (List (List ℚ)))
    (hch : ∀ c ∈ chunks, ∀ s ∈ c, s.length = nc) (st : EEGModuleState)
    (hinv : CapInv target N S nc st) :
    CapInv target N S nc (runCapture st chunks) := by
  induction chunks generalizing st with
  | nil => exact hinv
  | cons c rest ih =>
    exact ih (fun x hx => hch x (by simp [hx])) _
      (processCaptureChunk_inv target N S nc hS st c
        (hch c (by simp)) hinv)

/-- C7: a capture started with `needed = N` and `samples_per_trial = S`,
fed any sequence of sample chunks (each sample an `nc`-channel row), slices
one transposed `(nc, S)` trial window whenever the accumulation buffer
reaches `S`, and leaves the Capturing state exactly when `N` trials have been
collected: once Idle again the target TrialSet holds exactly `N` well-shaped
trials, and while still Capturing the TrialSet holds `collected < N`
trials. -/
theorem calibration_capture_exact (target : String) (N S nc : ℕ)
    (hN : 0 < N) (hS : 0 < S) (st0 : EEGModuleState)
    (hidle : st0.captureState = none) (chunks : List (List (List ℚ)))
    (hch : ∀ c ∈ chunks, ∀ s ∈ c, s.length = nc) :
    ((runCapture (startCapture st0 target N S) chunks).captureState = none →
      (trialsOf (runCapture (startCapture st0 target N S) chunks)
        target).length = N ∧
      trialShapes nc S
        (trialsOf (runCapture (startCapture st0 target N S) chunks) target)) ∧
    (∀ cs, (runCapture (startCapture st0 target N S) chunks).captureState =
        some cs →
      cs.collected < N ∧
      (trialsOf (runCapture (startCapture st0 target N S) chunks)
        target).length = cs.collected ∧
      cs.target = target ∧ cs.needed = N ∧ cs.samplesNeeded = S) := by
  have hstart : CapInv target N S nc (startCapture st0 target N S) := by
    have hsc : (startCapture st0 target N S).captureState =
        some ⟨target, N, 0, S, []⟩ := by
      simp [startCapture, hidle, captureState_setTrials]
    have htr : trialsOf (startCapture st0 target N S) target = [] := by
      simp [startCapture, hidle, trialsOf_setTrials]
    simp only [CapInv, hsc, htr]
    simp [trialShapes, hN, hS]
  have hfinal := runCapture_inv target N S nc hS chunks hch _ hstart
  constructor
  · intro hnone
    simpa only [CapInv, hnone] using hfinal
  · intro cs hsome
    simp only [CapInv, hsome] at hfinal
    obtain ⟨g1, g2, g3, g4, g5, _, _, _⟩ := hfinal
    exact ⟨g4, g5, g1, g2, g3⟩

/-- C7 witness: one needed trial of two 1-channel samples, delivered in one
chunk of three samples (the third sample is discarded by the break). -/
theorem calibration_capture_exact_witness :
    ((runCapture (startCapture ⟨none, [], []⟩ "left" 1 2) [[[5], [6], [7]]]).captureState = none →
      (trialsOf (runCapture (startCapture ⟨none, [], []⟩ "left" 1 2)
        [[[5], [6], [7]]]) "left").length = 1 ∧
      trialShapes 1 2
        (trialsOf (runCapture (startCapture ⟨none, [], []⟩ "left" 1 2)
          [[[5], [6], [7]]]) "left")) ∧
    (∀ cs, (runCapture (startCapture ⟨none, [], []⟩ "left" 1 2)
        [[[5], [6], [7]]]).captureState = some cs →
      cs.collected < 1 ∧
      (trialsOf (runCapture (startCapture ⟨none, [], []⟩ "left" 1 2)
        [[[5], [6], [7]]]) "left").length = cs.collected ∧
      cs.target = "left" ∧ cs.needed = 1 ∧ cs.samplesNeeded = 2) :=
  calibration_capture_exact "left" 1 2 1 (by decide) (by decide)
    ⟨none, [], []⟩ rfl [[[5], [6], [7]]] (by decide)

/-! ## EEGWorker model state and training (src/eeg_worker.py lines 268-454) -/

/-- Oracle for `math.sqrt`-style square roots used by `StandardScaler`. -/
abbrev SqrtFn := ℚ → ℚ

/-- Fitted state of the shared `StandardScaler`: per-column mean and scale
(`None` is the unfitted object created in `__init__`). -/
structure ScalerState where
  mean_ : List ℚ
  scale_ : List ℚ
deriving Repr, DecidableEq

/-- A classifier object: its kind and, once `.fit` ran, the training data it
was fitted with (the decision function itself lives behind predict
oracles). -/
structure ClfState where
  kind : String
  fittedWith : Option (Mat × List ℤ)
deriving Repr, DecidableEq

/-- The model-related mutable attributes of `EEGWorker`. -/
structure WorkerModel where
  model_csp : Option CSPState
  scaler : Option ScalerState
  model_clf : Option ClfState
  model_ready : Bool
deriving Repr, DecidableEq

def colMeans (m : Mat) (ncols : ℕ) : List ℚ :=
  (List.range ncols).map (fun j => listMean (m.map (fun r => r.getD j 0)))

def colVars (m : Mat) (ncols : ℕ) : List ℚ :=
  (List.range ncols).map (fun j => rowVar (m.map (fun r => r.getD j 0)))

/-- `StandardScaler.fit`: per-column mean and sqrt-variance scale, zero
scales replaced by 1 (sklearn handles zero variance that way). -/
def scalerFit (sq : SqrtFn) (feats : Mat) : ScalerState :=
  let ncols := (feats.headD []).length
  ⟨colMeans feats ncols,
   (colVars feats ncols).map (fun v => if sq v = 0 then 1 else sq v)⟩

/-- `StandardScaler.transform`: `(x - mean) / scale` per column; a column
mismatch raises. -/
def scalerTransform (sc : ScalerState) (feats : Mat) : Except String Mat :=
  if feats.all (fun r => r.length = sc.mean_.length) then
    .ok (feats.map (fun r =>
      List.zipWith (fun x (p : ℚ × ℚ) => (x - p.1) / p.2) r
        (sc.mean_.zip sc.scale_)))
  else .error "X has a different shape than during fitting"

def matDims (m : Mat) : ℕ × ℕ := (m.length, (m.headD []).length)

def matRectB (m : Mat) : Bool := m.all (fun r => r.length = (m.headD []).length)

/-- `np.stack` of a list of 2-D trials: requires identical rectangular
shapes, raising otherwise. -/
def npStack (ts : List Mat) : Except String (List Mat) :=
  if ts.all (fun t => matRectB t && decide (matDims t = matDims (ts.headD [])))
  then .ok ts
  else .error "all input arrays must have the same shape"

/-- `np.concatenate([a, b], axis=0)` of two stacked trial sets: trailing
dimensions must agree, raising otherwise. -/
def npConcat0 (a b : List Mat) : Except String (List Mat) :=
  if matDims (a.headD []) = matDims (b.headD []) then .ok (a ++ b)
  else .error "input array dimensions must match"

/-- `EEGWorker.train_model` (src/eeg_worker.py lines 427-454) as a function
of the model state, returning the new state and the emitted status message.
The assignments happen in program order inside the try block: `model_csp` is
replaced by a fresh unfitted CSP before `fit` runs, the shared scaler is
refit in place, `model_clf` is replaced and then fit, and only at the very
end does `model_ready` become true; an exception leaves every assignment
made so far in place (the except arm only emits a message). -/
def trainModel (e : EighFn) (lg : LogFn) (sq : SqrtFn) (st : WorkerModel)
    (Xl Xr : List Mat) (method : String) : WorkerModel × String :=
  if Xl.length < 2 ∨ Xr.length < 2 then (st, "样本不足")
  else
    match npStack Xl with
    | .error msg => (st, "训练失败: " ++ msg)
    | .ok A =>
      match npStack Xr with
      | .error msg => (st, "训练失败: " ++ msg)
      | .ok B =>
        match npConcat0 A B with
        | .error msg => (st, "训练失败: " ++ msg)
        | .ok X =>
          let y := List.replicate Xl.length (0 : ℤ) ++
            List.replicate Xr.length 1
          let st1 := { st with model_csp := some (cspNew 4 "vectorized") }
          match cspFit e (cspNew 4 "vectorized") (.a3 X) y with
          | .error msg => (st1, "训练失败: " ++ msg)
          | .ok c1 =>
            let st2 := { st1 with model_csp := some c1 }
            match cspTransform lg c1 (.a3 X) with
            | .error msg => (st2, "训练失败: " ++ msg)
            | .ok feats =>
              let sc := scalerFit sq feats
              let st3 := { st2 with scaler := some sc }
              match scalerTransform sc feats with
              | .error msg => (st3, "训练失败: " ++ msg)
              | .ok featsNorm =>
                let clf0 : ClfState :=
                  ⟨if method = "knn" then "knn" else "svm", none⟩
                let st4 := { st3 with model_clf := some clf0 }
                ({ st4 with
                    model_clf := some { clf0 with
                      fittedWith := some (featsNorm, y) },
                    model_ready := true }, "模型训练完成")

/-- C8 counterexample: starting from a fully trained state, a retrain whose
eigen-decomposition raises (as scipy genuinely does on the nan covariances
produced by a zero-trace trial) leaves the state partially updated:
`model_csp` has been replaced by a fresh unfitted CSP while `model_clf`
still holds the previous classifier and `model_ready` is still true — the
replacement is not atomic and the pre-retrain state is not preserved. -/
theorem trainModel_not_atomic_counterexample :
    (trainModel (fun _ _ => .error "nan") (fun x => x) (fun x => x)
        ⟨some ⟨4, "vectorized", some [[1, 1]]⟩, some ⟨[0], [1]⟩,
          some ⟨"svm", some ([[1]], [0])⟩, true⟩
        [[[1, 0], [0, 1]], [[1, 0], [0, 1]]]
        [[[2, 0], [0, 1]], [[2, 0], [0, 1]]] "svm").2 = "训练失败: nan" ∧
    (trainModel (fun _ _ => .error "nan") (fun x => x) (fun x => x)
        ⟨some ⟨4, "vectorized", some [[1, 1]]⟩, some ⟨[0], [1]⟩,
          some ⟨"svm", some ([[1]], [0])⟩, true⟩
        [[[1, 0], [0, 1]], [[1, 0], [0, 1]]]
        [[[2, 0], [0, 1]], [[2, 0], [0, 1]]] "svm").1.model_csp ≠
      some ⟨4, "vectorized", some [[1, 1]]⟩ ∧
    (trainModel (fun _ _ => .error "nan") (fun x => x) (fun x => x)
        ⟨some ⟨4, "vectorized", some [[1, 1]]⟩, some ⟨[0], [1]⟩,
          some ⟨"svm", some ([[1]], [0])⟩, true⟩
        [[[1, 0], [0, 1]], [[1, 0], [0, 1]]]
        [[[2, 0], [0, 1]], [[2, 0], [0, 1]]] "svm").1.model_clf =
      some ⟨"svm", some ([[1]], [0])⟩ ∧
    (trainModel (fun _ _ => .error "nan") (fun x => x) (fun x => x)
        ⟨some ⟨4, "vectorized", some [[1, 1]]⟩, some ⟨[0], [1]⟩,
          some ⟨"svm", some ([[1]], [0])⟩, true⟩
        [[[1, 0], [0, 1]], [[1, 0], [0, 1]]]
        [[[2, 0], [0, 1]], [[2, 0], [0, 1]]] "svm").1.model_ready = true := by
  decide

/-- C8 (amended): `train_model` updates the components sequentially, not
atomically. When every step succeeds, the CSP, scaler and classifier are all
replaced and `model_ready` becomes true; when the CSP fit raises, the state
keeps the already-made assignment — a fresh unfitted `model_csp` — while the
scaler, classifier and `model_ready` retain their previous values. -/
theorem trainModel_sequential_update (e : EighFn) (lg : LogFn) (sq : SqrtFn)
    (st : WorkerModel) (Xl Xr : List Mat) (method : String)
    (hl : 2 ≤ Xl.length) (hr : 2 ≤ Xr.length) (A B X : List Mat)
    (hA : npStack Xl = .ok A) (hB : npStack Xr = .ok B)
    (hX : npConcat0 A B = .ok X) :
    (∀ msg, cspFit e (cspNew 4 "vectorized") (.a3 X)
        (List.replicate Xl.length (0 : ℤ) ++ List.replicate Xr.length 1) =
        .error msg →
      trainModel e lg sq st Xl Xr method =
        ({ st with model_csp := some (cspNew 4 "vectorized") },
         "训练失败: " ++ msg)) ∧
    (∀ c1 feats featsNorm,
      cspFit e (cspNew 4 "vectorized") (.a3 X)
        (List.replicate Xl.length (0 : ℤ) ++ List.replicate Xr.length 1) =
        .ok c1 →
      cspTransform lg c1 (.a3 X) = .ok feats →
      scalerTransform (scalerFit sq feats) feats = .ok featsNorm →
      trainModel e lg sq st Xl Xr method =
        ({ model_csp := some c1, scaler := some (scalerFit sq feats),
           model_clf := some ⟨if method = "knn" then "knn" else "svm",
             some (featsNorm,
               List.replicate Xl.length (0 : ℤ) ++
                 List.replicate Xr.length 1)⟩,
           model_ready := true }, "模型训练完成")) := by
  have hcond : ¬ (Xl.length < 2 ∨ Xr.length < 2) := by omega
  constructor
  · intro msg hmsg
    simp only [trainModel]
    rw [if_neg hcond]
    simp only [hA, hB, hX, hmsg]
  · intro c1 feats featsNorm h1 h2 h3
    simp only [trainModel]
    rw [if_neg hcond]
    simp only [hA, hB, hX, h1, h2, h3]

/-- C8 amended-claim witness: a concrete failing eigen-decomposition leaves
exactly the fresh unfitted CSP assigned. -/
theorem trainModel_sequential_update_witness :
    trainModel (fun _ _ => .error "nan") (fun x => x) (fun x => x)
        ⟨none, none, none, false⟩
        [[[1, 0], [0, 1]], [[1, 0], [0, 1]]]
        [[[2, 0], [0, 1]], [[2, 0], [0, 1]]] "svm" =
      ({ model_csp := some (cspNew 4 "vectorized"), scaler := none,
         model_clf := none, model_ready := false }, "训练失败: nan") :=
  (trainModel_sequential_update (fun _ _ => .error "nan") (fun x => x)
    (fun x => x) ⟨none, none, none, false⟩
    [[[1, 0], [0, 1]], [[1, 0], [0, 1]]]
    [[[2, 0], [0, 1]], [[2, 0], [0, 1]]] "svm" (by decide) (by decide)
    [[[1, 0], [0, 1]], [[1, 0], [0, 1]]]
    [[[2, 0], [0, 1]], [[2, 0], [0, 1]]]
    [[[1, 0], [0, 1]], [[1, 0], [0, 1]], [[2, 0], [0, 1]], [[2, 0], [0, 1]]]
    rfl rfl rfl).1 "nan" rfl

/-! ## Online prediction (src/eeg_worker.py lines 395-425) -/

/-- Classifier oracles: `predict_proba` rows when available, else plain
`predict` labels. -/
structure ClfOracle where
  hasProba : Bool
  proba : Mat → Except String Mat
  predict : Mat → Except String (List ℤ)

/-- `np.argmax` helper: first index of the running maximum. -/
def npArgmaxAux (i bi : ℕ) (bv : ℚ) : List ℚ → ℕ
  | [] => bi
  | x :: xs =>
    if bv < x then npArgmaxAux (i + 1) i x xs
    else npArgmaxAux (i + 1) bi bv xs

/-- `np.argmax` on a nonempty probability row (the caller guards emptiness,
where numpy raises). -/
def npArgmax : List ℚ → ℕ
  | [] => 0
  | x :: xs => npArgmaxAux 1 0 x xs

/-- Runtime parameters of the prediction tick. -/
structure PredParams where
  srate : ℚ
  notch_freq : ℚ
  band_low : ℚ
  band_high : ℚ
deriving Repr, DecidableEq

/-- The per-window body of `_perform_prediction` (lines 401-423): slice the
first 8 channels (`raw[:, :8]`), notch filter, band-pass filter, transpose,
CSP log-variance features, scaling, classification; any exception in the
try block is swallowed (`none`: the tick is skipped). -/
def predictFromWindow (no : NotchFn) (bo : FiltFn) (lg : LogFn)
    (cspM : Option CSPState) (scM : Option ScalerState) (clf : ClfOracle)
    (p : PredParams) (raw : Mat) : Option (String × ℚ) :=
  let eeg := raw.map (fun r => r.take 8)
  let eeg1 := notch_filter no eeg p.srate p.notch_freq 30
  let eeg2 := butter_filter bo eeg1 p.srate (some p.band_low)
    (some p.band_high) 4
  let eegT := npT eeg2
  match cspM with
  | none => none
  | some c =>
    match cspTransform lg c (.a2 eegT) with
    | .error _ => none
    | .ok feat =>
      match scM with
      | none => none
      | some sc =>
        match scalerTransform sc feat with
        | .error _ => none
        | .ok featN =>
          if clf.hasProba then
            match clf.proba featN with
            | .error _ => none
            | .ok [] => none
            | .ok (probs :: _) =>
              if probs = [] then none
              else
                some (if npArgmax probs = 0 then "left" else "right",
                  probs.getD (npArgmax probs) 0)
          else
            match clf.predict featN with
            | .error _ => none
            | .ok [] => none
            | .ok (i :: _) => some (if i = 0 then "left" else "right", 1)

/-- `_perform_prediction` (lines 395-425): skip when there is no buffer or
when fewer than `win_size_sec * srate` samples are available, otherwise
classify the most recent window. -/
def performPrediction (no : NotchFn) (bo : FiltFn) (lg : LogFn)
    (cspM : Option CSPState) (scM : Option ScalerState) (clf : ClfOracle)
    (p : PredParams) (winSize : ℚ)
    (bufM : Option (RingBuffer (List ℚ))) : Option (String × ℚ) :=
  match bufM with
  | none => none
  | some rb =>
    match rb.getLast (winSize * p.srate).floor.toNat with
    | none => none
    | some raw => predictFromWindow no bo lg cspM scM clf p raw

/-- C10: the prediction tick feeds only the first 8 channels of the window
retrieved from the ring buffer into the notch, band-pass, CSP, scaler and
classifier pipeline: whenever the retrieved windows of two buffers agree on
their first 8 columns, the emitted label and confidence are identical, so
channels beyond the eighth never influence the prediction. -/
theorem prediction_ignores_channels_beyond_8 (no : NotchFn) (bo : FiltFn)
    (lg : LogFn) (cspM : Option CSPState) (scM : Option ScalerState)
    (clf : ClfOracle) (p : PredParams) (winSize : ℚ)
    (rb1 rb2 : RingBuffer (List ℚ))
    (h : Option.map (fun w => w.map (fun r => r.take 8))
        (rb1.getLast (winSize * p.srate).floor.toNat) =
      Option.map (fun w => w.map (fun r => r.take 8))
        (rb2.getLast (winSize * p.srate).floor.toNat)) :
    performPrediction no bo lg cspM scM clf p winSize (some rb1) =
      performPrediction no bo lg cspM scM clf p winSize (some rb2) := by
  simp only [performPrediction]
  cases h1 : rb1.getLast (winSize * p.srate).floor.toNat with
  | none =>
    cases h2 : rb2.getLast (winSize * p.srate).floor.toNat with
    | none => rfl
    | some w2 =>
      rw [h1, h2] at h
      simp at h
  | some w1 =>
    cases h2 : rb2.getLast (winSize * p.srate).floor.toNat with
    | none =>
      rw [h1, h2] at h
      simp at h
    | some w2 =>
      rw [h1, h2] at h
      simp only [Option.map_some'] at h
      injection h with h
      simp only [predictFromWindow]
      rw [h]

/-- C10 witness: two one-row windows identical on channels 1-8 and different
on channel 9 yield the same prediction. -/
theorem prediction_ignores_channels_beyond_8_witness :
    performPrediction (fun _ _ d => .ok d) (fun _ _ _ d => .ok d)
        (fun x => x) (some ⟨1, "vectorized", some [[1, 0, 0, 0, 0, 0, 0, 0]]⟩)
        (some ⟨[0], [1]⟩) ⟨true, fun _ => .ok [[1/2, 1/2]], fun _ => .ok [0]⟩
        ⟨1, 50, 8, 30⟩ 1
        (some ((RingBuffer.init [] 1).append [[1, 1, 1, 1, 1, 1, 1, 1, 5]])) =
      performPrediction (fun _ _ d => .ok d) (fun _ _ _ d => .ok d)
        (fun x => x) (some ⟨1, "vectorized", some [[1, 0, 0, 0, 0, 0, 0, 0]]⟩)
        (some ⟨[0], [1]⟩) ⟨true, fun _ => .ok [[1/2, 1/2]], fun _ => .ok [0]⟩
        ⟨1, 50, 8, 30⟩ 1
        (some ((RingBuffer.init [] 1).append [[1, 1, 1, 1, 1, 1, 1, 1, 7]])) :=
  prediction_ignores_channels_beyond_8 _ _ _ _ _ _ _ _ _ _
    (by simp only [one_mul]; decide)

end NeuroPilot
